import Mathlib

set_option linter.unusedVariables false

/-!
Verification of the Huffman codec in huffman.py (SystemFiles/Huffman-DataComp)
against its natural-language specification.

Conventions of the shallow embedding:
* Python bytes and symbols are `Nat`; bitstrings ("0"/"1" characters) are
  `List Bool` with false for "0" and true for "1".
* Python dicts are association lists in insertion order; `dlookup`, `dinsert`
  and `dupdate` reproduce Python dict lookup, item assignment and `update`
  (assignment to a present key keeps its position, a new key is appended).
* A Python function that can raise an uncaught exception is embedded with an
  `Option` result; `none` means the call raises.
* `HuffmanNode` objects built by the compression path are full binary trees
  and are embedded by the inductive `HuffmanNode` below, with the mutable
  `number` attribute carried as an `Option Nat` field (`none` = unset).
  The decompression path (`generate_tree_general` / `generate_tree_postorder`)
  can build nodes with a missing (`None`) child, so it is embedded over the
  type `PTree` in which a child slot may be `pnull`.
-/

/-- A `HuffmanNode` of nodes.py as used by the compression path: either a leaf
holding a symbol or an internal node with two children; both carry the mutable
`number` attribute (`none` until `number_nodes` sets it).  (nodes.py is not in
the sources; its data layout is modelled from the spec data model:
Leaf = symbol + no children, Internal = exactly two children.) -/
inductive HuffmanNode where
  | leaf (symbol : Nat) (number : Option Nat)
  | node (left right : HuffmanNode) (number : Option Nat)
deriving DecidableEq

/-- Python dict lookup `d[k]` (first matching key; keys are unique in any list
built by `dinsert`/`dupdate`, as in a Python dict). -/
def dlookup {κ α : Type} [DecidableEq κ] : List (κ × α) → κ → Option α
  | [], _ => none
  | p :: rest, k => if p.1 = k then some p.2 else dlookup rest k

/-- Python dict item assignment `d[k] = v`: overwrite in place if the key is
present, otherwise append the new entry. -/
def dinsert {κ α : Type} [DecidableEq κ] (d : List (κ × α)) (k : κ) (v : α) :
    List (κ × α) :=
  if (dlookup d k).isSome then d.map (fun p => if p.1 = k then (k, v) else p)
  else d ++ [(k, v)]

/-- Python `d.update(e)`: insert the items of `e` into `d` in order. -/
def dupdate {κ α : Type} [DecidableEq κ] (d e : List (κ × α)) : List (κ × α) :=
  e.foldl (fun acc p => dinsert acc p.1 p.2) d

/-- Source: `make_freq_dict`.  Counts each byte of the text, adding a new key
with count 1 the first time a byte is seen, incrementing in place afterwards. -/
def make_freq_dict (text : List Nat) : List (Nat × Nat) :=
  text.foldl
    (fun dic ch =>
      if (dlookup dic ch).isSome then
        dic.map (fun p => if p.1 = ch then (p.1, p.2 + 1) else p)
      else dic ++ [(ch, 1)])
    []

/-- Python `freq_dict[key]` inside `find_biggest_key`.  The default 0 is never used:
the helper is only called with the dict's own keys. -/
def lookupD (d : List (Nat × Nat)) (k : Nat) : Nat := (dlookup d k).getD 0

/-- Source: the helper `find_biggest_key` of `huffman_tree`, scanning the key
list left to right and keeping the current key on ties (strict `>`); the key
list it receives always equals the keys of the remaining dict, so it is taken
here directly from the dict. -/
def find_biggest_key (freq : List (Nat × Nat)) : Option Nat :=
  match freq.map Prod.fst with
  | [] => none
  | k :: ks =>
    some (ks.foldl (fun cur key =>
      if lookupD freq key > lookupD freq cur then key else cur) k)

/-- Python `del frequency[biggest_key]` together with `key_list.remove(biggest_key)`:
drop the first entry with the given key, keeping the order of the rest. -/
def removeKey : List (Nat × Nat) → Nat → List (Nat × Nat)
  | [], _ => []
  | p :: rest, k => if p.1 = k then rest else p :: removeKey rest k

/-- The first `while` loop of `huffman_tree` building `temp`: repeatedly append
the biggest remaining key and delete it.  Each pass removes exactly one key, so
the loop runs `len(freq_dict)` times; that count is the structural fuel. -/
def buildTempFuel : Nat → List (Nat × Nat) → List Nat
  | 0, _ => []
  | fuel + 1, freq =>
    match find_biggest_key freq with
    | none => []
    | some b => b :: buildTempFuel fuel (removeKey freq b)

/-- The list `temp` of `huffman_tree` after its first loop. -/
def buildTemp (freq : List (Nat × Nat)) : List Nat :=
  buildTempFuel freq.length freq

/-- The merge loop of `huffman_tree` on `nodes_list` (index 0 = queue front).
`pop()` takes the last element; when the list becomes empty after the first
pop the popped node is returned; otherwise the two popped nodes are merged
(left = first popped, right = second popped) and the merged node is
`insert(0, ...)`-ed at the front.  Each pass shrinks the list by one node, so
`len(nodes_list)` passes of fuel are enough; popping from an empty list is the
uncaught `IndexError` (`none`). -/
def mergeLoopFuel : Nat → List HuffmanNode → Option HuffmanNode
  | 0, _ => none
  | fuel + 1, l =>
    match l.getLast? with
    | none => none
    | some first =>
      match l.dropLast.getLast? with
      | none => some first
      | some second =>
        mergeLoopFuel fuel (HuffmanNode.node first second none :: l.dropLast.dropLast)

/-- The merge loop of `huffman_tree`, started with fuel `l.length`. -/
def mergeLoop (l : List HuffmanNode) : Option HuffmanNode :=
  mergeLoopFuel l.length l

/-- Source: `huffman_tree`.  `nodes_list` is built by popping `temp` from its
end (which yields `temp` reversed) and then reversed in place, after which the
merge loop runs.  `none` is the uncaught `IndexError` raised on an empty
frequency dict (the merge loop pops from an empty list). -/
def huffman_tree (freq_dict : List (Nat × Nat)) : Option HuffmanNode :=
  let temp := buildTemp freq_dict
  let nodes_list := ((temp.reverse).map (fun s => HuffmanNode.leaf s none)).reverse
  mergeLoop nodes_list

/-- Source: `get_codes` (the active branch after the commented-out draft).
A bare leaf yields the empty dict; otherwise a leaf child is written directly
with a one-bit code and an internal child's recursive codes are prefixed and
merged with `d.update`. -/
def get_codes : HuffmanNode → List (Nat × List Bool)
  | .leaf _ _ => []
  | .node l r _ =>
    let d1 : List (Nat × List Bool) :=
      match l with
      | .leaf s _ => dinsert [] s [false]
      | _ => dupdate [] ((get_codes l).map (fun p => (p.1, false :: p.2)))
    match r with
    | .leaf s _ => dinsert d1 s [true]
    | _ => dupdate d1 ((get_codes r).map (fun p => (p.1, true :: p.2)))

/-- The body of `traverse_node` inside `number_nodes`: every node (leaves
included) gets `node.number = x`, where the left child inherits `x` and the
right child gets `x + 1`. -/
def assignX : HuffmanNode → Nat → HuffmanNode
  | .leaf s _, x => .leaf s (some x)
  | .node l r _, x => .node (assignX l x) (assignX r (x + 1)) (some x)

/-- Overwrite the root's `number` attribute. -/
def setRootNumber : HuffmanNode → Nat → HuffmanNode
  | .leaf s _, n => .leaf s (some n)
  | .node l r _, n => .node l r (some n)

/-- Source: `number_nodes` (mutation returned functionally).  `traverse_node`
sets `node.number = x` everywhere with `x` inherited on the left and `x + 1`
on the right, and every call ends with `tree.number = max + 1` where the local
`max` parameter is always 0, so the root's number is finally overwritten to 2
whatever the tree is. -/
def number_nodes (tree : HuffmanNode) : HuffmanNode :=
  setRootNumber (assignX tree 0) 2

/-- The root's `number` attribute. -/
def rootNumber : HuffmanNode → Option Nat
  | .leaf _ num => num
  | .node _ _ num => num

/-- Source: `avg_length`.  The loop sums the integers
`len(get_codes(tree)[key]) * freq_dict[key]` into `l` and the counts into
`divisor`; a key without a code is the uncaught `KeyError` and a zero
`divisor` the uncaught `ZeroDivisionError`, both embedded as `none`.  The
final `l / divisor` is Python float division, modelled exactly in `ℚ` (the
quantities here are far below any float rounding). -/
def avg_length (tree : HuffmanNode) (freq_dict : List (Nat × Nat)) : Option ℚ :=
  (freq_dict.foldlM
      (fun (acc : Nat × Nat) p =>
        (dlookup (get_codes tree) p.1).map
          (fun code => (acc.1 + code.length * p.2, acc.2 + p.2)))
      ((0 : Nat), (0 : Nat))).bind
    (fun lp => if lp.2 = 0 then none else some ((lp.1 : ℚ) / (lp.2 : ℚ)))

/-- Source: `bits_to_byte`.  `int(bits[pos]) << (7 - pos)` summed over the
string; a string longer than 8 bits makes `7 - pos` negative, which raises
`ValueError` (`none`). -/
def bits_to_byte (bits : List Bool) : Option Nat :=
  if bits.length ≤ 8 then
    some ((bits.enum.foldl
      (fun acc pb => acc + (cond pb.2 1 0) * 2 ^ (7 - pb.1)) 0))
  else none

/-- The first loop of `generate_compressed`: concatenate `codes[i]` over the
text; a byte without a code is the uncaught `KeyError` (`none`). -/
def concatCodes (codes : List (Nat × List Bool)) (text : List Nat) :
    Option (List Bool) :=
  text.foldlM (fun acc i => (dlookup codes i).map (fun c => acc ++ c)) []

/-- Source: `generate_compressed`.  Under 8 bits a single padded byte is
returned; otherwise the loop runs for `i in range(1, len(byte) % 8 + 2)`,
each pass appending `bits_to_byte(byte[:8*i])` and dropping those characters. -/
def generate_compressed (text : List Nat) (codes : List (Nat × List Bool)) :
    Option (List Nat) := do
  let bits ← concatCodes codes text
  if bits.length < 8 then
    let b ← bits_to_byte bits
    return [b]
  else
    let r ← (List.range' 1 (bits.length % 8 + 1)).foldlM
      (fun (st : List Nat × List Bool) i => do
        let b ← bits_to_byte (st.2.take (8 * i))
        return (st.1 ++ [b], st.2.drop (8 * i)))
      (([] : List Nat), bits)
    return r.1

/-- The helper `traverse_tree` of `tree_to_bytes`: a leaf child contributes
`[0, symbol]`, an internal child is recursed into, and after both sides each
internal node appends `[1, node.number]`.  Entries are `Option Nat` because
`node.number` may still be `None`. -/
def traverse_tree : HuffmanNode → List (Option Nat)
  | .leaf _ _ => []
  | .node l r num =>
    (match l with
     | .leaf s _ => [some 0, some s]
     | _ => traverse_tree l)
    ++ (match r with
        | .leaf s _ => [some 0, some s]
        | _ => traverse_tree r)
    ++ [some 1, num]

/-- Python `bytes(lst)`: every entry must be a set number below 256, otherwise
`TypeError`/`ValueError` (`none`). -/
def bytesChecked (l : List (Option Nat)) : Option (List Nat) :=
  l.mapM (fun o => o.bind (fun v => if v < 256 then some v else none))

/-- Source: `tree_to_bytes`: the traversal list with its final two entries
(the root's own `[1, number]` pair) sliced off by `lst[:-2]`. -/
def tree_to_bytes (tree : HuffmanNode) : Option (List Nat) :=
  bytesChecked ((traverse_tree tree).dropLast.dropLast)

/-- Source: `num_nodes_to_bytes`: the single byte `tree.number + 1`
(`TypeError` when the root is unnumbered). -/
def num_nodes_to_bytes (tree : HuffmanNode) : Option (List Nat) :=
  (rootNumber tree).bind (fun n => if n + 1 < 256 then some [n + 1] else none)

/-- A `ReadNode` of nodes.py: the four fields of one serialized record.
(nodes.py is not in the sources; the record layout is the spec's
SerializedNodeRecord.) -/
structure ReadNode where
  l_type : Nat
  l_data : Nat
  r_type : Nat
  r_data : Nat
deriving DecidableEq

/-- Source: `bytes_to_nodes`: consecutive 4-byte groups become `ReadNode`s;
a trailing group shorter than 4 raises `IndexError` (`none`). -/
def bytes_to_nodes : List Nat → Option (List ReadNode)
  | [] => some []
  | a :: b :: c :: d :: rest =>
    (bytes_to_nodes rest).map (fun l => ReadNode.mk a b c d :: l)
  | _ => none

/-- A Python `HuffmanNode` object as the decompression path builds it: the
`symbol` attribute and two child slots that may hold `None` (`pnull`).  A
fresh `HuffmanNode()` shell is `pnode none pnull pnull` until its children
are assigned. -/
inductive PTree where
  | pnull
  | pnode (symbol : Option Nat) (left right : PTree)
deriving DecidableEq

/-- The `HuffmanNode.is_leaf` test of nodes.py on such an object: no children.
(Modelled from the spec: a Leaf holds a symbol and no children.) -/
def pIsLeaf : PTree → Bool
  | .pnode _ .pnull .pnull => true
  | _ => false

/-- The `symbol` attribute of such an object. -/
def psymbol : PTree → Option Nat
  | .pnull => none
  | .pnode s _ _ => s

/-- The length-1 branch of `generate_tree_general`: a fresh shell whose
children become leaves for the record's two data bytes (the type flags are
ignored there). -/
def buildSingle (rn : ReadNode) : PTree :=
  .pnode none (.pnode (some rn.l_data) .pnull .pnull)
    (.pnode (some rn.r_data) .pnull .pnull)

/-- Source: `generate_tree_general`.  A singleton list maps through the
length-1 branch; otherwise the record at `root_index` drives four branches
that assign `tree.left` / `tree.right` in order (note: `l_type == 1` with
`l_data == 1` assigns `tree.right`, and `r_type == 1` with `r_data == 0`
assigns `tree.left`, leaving the other slot possibly `None`).  Its recursive
calls always receive the singleton `[node_lst[0]]` or `[node_lst[1]]` and so
reduce to `buildSingle`; an out-of-range `root_index` is the uncaught
`IndexError` (`none`). -/
def generate_tree_general (node_lst : List ReadNode) (root_index : Nat) :
    Option PTree :=
  match node_lst with
  | [rn] => some (buildSingle rn)
  | l =>
    match l.get? root_index, l.get? 0, l.get? 1 with
    | some rn, some n0, some n1 =>
      let lr1 : PTree × PTree :=
        if rn.l_type = 1 then
          if rn.l_data = 1 then (.pnull, buildSingle n0)
          else (buildSingle n1, .pnull)
        else (.pnode (some rn.l_data) .pnull .pnull, .pnull)
      let lr2 : PTree × PTree :=
        if rn.r_type = 1 then
          if rn.r_data = 1 then (lr1.1, buildSingle n0)
          else (buildSingle n1, lr1.2)
        else (lr1.1, .pnode (some rn.r_data) .pnull .pnull)
      some (.pnode none lr2.1 lr2.2)
    | _, _, _ => none

/-- Source: `generate_tree_postorder`.  Same shell-and-assignment shape as the
general variant but with its own branch conditions; all its recursive calls go
through `generate_tree_general` on singleton lists, i.e. `buildSingle`. -/
def generate_tree_postorder (node_lst : List ReadNode) (root_index : Nat) :
    Option PTree :=
  match node_lst with
  | [rn] => some (buildSingle rn)
  | l =>
    match l.get? root_index, l.get? 0, l.get? 1 with
    | some rn, some n0, some n1 =>
      let lr1 : PTree × PTree :=
        if rn.l_type = 1 then
          if rn.l_data = 0 then (.pnull, buildSingle n1)
          else (buildSingle n0, .pnull)
        else (.pnode (some rn.l_data) .pnull .pnull, .pnull)
      let lr2 : PTree × PTree :=
        if rn.r_type = 1 then
          if rn.r_data = 1 then (lr1.1, buildSingle n1)
          else (buildSingle n0, lr1.2)
        else (lr1.1, .pnode (some rn.r_data) .pnull .pnull)
      some (.pnode none lr2.1 lr2.2)
    | _, _, _ => none

/-- Source `get_codes` run on an object built by the decompression path: identical
logic to `get_codes`, but a missing (`None`) child that the code dereferences
with `.is_leaf()` is the uncaught `AttributeError` (`none`), and a symbol may
be `None`, which Python happily uses as a dict key. -/
def getCodesP : PTree → Option (List (Option Nat × List Bool))
  | .pnull => none
  | .pnode s l r =>
    if pIsLeaf (.pnode s l r) then some []
    else if l = .pnull then none
    else
      (if pIsLeaf l then some (dinsert [] (psymbol l) [false])
       else (getCodesP l).map
         (fun t1 => dupdate [] (t1.map (fun p => (p.1, false :: p.2))))).bind
      (fun d1 =>
        if r = .pnull then none
        else if pIsLeaf r then some (dinsert d1 (psymbol r) [true])
        else (getCodesP r).map
          (fun t2 => dupdate d1 (t2.map (fun p => (p.1, true :: p.2)))))

/-- Source: `generate_uncompressed`.  Its body is only a to-do comment, so the
Python function returns `None` on every call. -/
def generate_uncompressed (tree : HuffmanNode) (text : List Nat) (size : Nat) :
    Option (List Nat) :=
  none

/-- Source: `improve_tree`.  Its body is only a to-do comment, so the call
mutates nothing and the tree is unchanged. -/
def improve_tree (tree : HuffmanNode) (freq_dict : List (Nat × Nat)) :
    HuffmanNode :=
  tree

/-! ## Spec-side definitions

These follow the wording of the specification (sections 4.2, 4.3, 4.4 and
4.5) and are compared with the source embeddings above. -/

/-- Spec 4.2 step 1, the tie-break: the first symbol reaching the maximum
frequency in a left-to-right scan of the symbols. -/
def scanMax (f : Nat → Nat) : List Nat → Option Nat
  | [] => none
  | k :: ks =>
    match scanMax f ks with
    | none => some k
    | some m => some (if f m > f k then m else k)

/-- Spec 4.2 step 1: order the symbols by descending frequency by repeatedly
extracting the scan maximum (one symbol leaves the table per round, so the
table size is enough fuel). -/
def specOrderFuel : Nat → List (Nat × Nat) → List Nat
  | 0, _ => []
  | fuel + 1, freq =>
    match scanMax (lookupD freq) (freq.map Prod.fst) with
    | none => []
    | some b => b :: specOrderFuel fuel (removeKey freq b)

/-- The spec's descending symbol order for a frequency table. -/
def specOrder (freq : List (Nat × Nat)) : List Nat :=
  specOrderFuel freq.length freq

/-- Spec 4.2 steps 2-3 with the queue held tail-first: the two
lowest-priority nodes are the first two entries, their merge
(left = first removed, right = second removed) is reinserted at the queue
head, i.e. at the far end of this list; one node remains - it is the root. -/
def mergeQueueRev : List HuffmanNode → Option HuffmanNode
  | [] => none
  | [t] => some t
  | a :: b :: rest => mergeQueueRev (rest ++ [HuffmanNode.node a b none])
termination_by l => l.length
decreasing_by simp

/-- The tree of the spec's documented merge policy: descending-order leaves
queued front-first (reversed here because `mergeQueueRev` is tail-first),
then merged to a single root. -/
def huffmanTreeSpec (freq : List (Nat × Nat)) : Option HuffmanNode :=
  mergeQueueRev (((specOrder freq).map (fun s => HuffmanNode.leaf s none)).reverse)

/-- Spec 4.3: the code of each leaf symbol is its root-to-leaf path, a left
edge contributing "0" (false) and a right edge "1" (true). -/
def leafPaths : HuffmanNode → List (Nat × List Bool)
  | .leaf s _ => [(s, [])]
  | .node l r _ =>
    (leafPaths l).map (fun p => (p.1, false :: p.2))
      ++ (leafPaths r).map (fun p => (p.1, true :: p.2))

/-- The tree's leaf symbols, left to right. -/
def leafSymbols : HuffmanNode → List Nat
  | .leaf s _ => [s]
  | .node l r _ => leafSymbols l ++ leafSymbols r

/-- The value of one (at most 8 bit) group, right-padded with zero bits. -/
def byteVal (bits : List Bool) : Nat :=
  bits.enum.foldl (fun acc pb => acc + (cond pb.2 1 0) * 2 ^ (7 - pb.1)) 0

/-- Spec 4.5 encode, split into 8-bit groups (each round consumes at least
one bit, so the bit count is enough fuel). -/
def packBitsSpecFuel : Nat → List Bool → List Nat
  | 0, _ => []
  | fuel + 1, bits =>
    if bits = [] then []
    else byteVal (bits.take 8) :: packBitsSpecFuel fuel (bits.drop 8)

/-- Spec 4.5 encode: the concatenated codes split into 8-bit groups, the
final partial group right-padded with zero bits. -/
def packBitsSpec (bits : List Bool) : List Nat :=
  packBitsSpecFuel bits.length bits

/-- The number of Internal nodes of a tree. -/
def internalCount : HuffmanNode → Nat
  | .leaf _ _ => 0
  | .node l r _ => internalCount l + internalCount r + 1

/-- The `number` attributes of the internal nodes in postorder. -/
def internalNumbers : HuffmanNode → List (Option Nat)
  | .leaf _ _ => []
  | .node l r num => internalNumbers l ++ internalNumbers r ++ [num]

/-- The `number` attributes of the leaves, left to right. -/
def leafNumbers : HuffmanNode → List (Option Nat)
  | .leaf _ num => [num]
  | .node l r _ => leafNumbers l ++ leafNumbers r

/-- Same branching structure (symbols and numbers ignored). -/
def sameShape : HuffmanNode → HuffmanNode → Bool
  | .leaf _ _, .leaf _ _ => true
  | .node l1 r1 _, .node l2 r2 _ => sameShape l1 l2 && sameShape r1 r2
  | _, _ => false

/-- Whether the root is an Internal node. -/
def isInternal : HuffmanNode → Bool
  | .node _ _ _ => true
  | .leaf _ _ => false

/-! ## Equivalence of `huffman_tree` with the spec's merge policy (claim C2) -/

/-- The scan never decreases the value of the current key. -/
theorem foldl_scan_ge (f : Nat → Nat) :
    ∀ (ks : List Nat) (init : Nat),
      f init ≤ f (ks.foldl (fun cur key => if f key > f cur then key else cur) init) := by
  intro ks
  induction ks with
  | nil => intro init; exact Nat.le_refl _
  | cons c ks ih =>
    intro init
    simp only [List.foldl_cons]
    refine Nat.le_trans ?_ (ih (if f c > f init then c else init))
    by_cases hc : f c > f init
    · simp [hc]; omega
    · simp [hc]

/-- The left-to-right scan of `find_biggest_key` restated as a fold starting
from a one-step comparison: folding from `if f a > f k then a else k` keeps
`k` exactly when no later element strictly beats it. -/
theorem foldl_pick (f : Nat → Nat) :
    ∀ (ks : List Nat) (k a : Nat),
      ks.foldl (fun cur key => if f key > f cur then key else cur)
          (if f a > f k then a else k) =
        if f (ks.foldl (fun cur key => if f key > f cur then key else cur) a) > f k
        then ks.foldl (fun cur key => if f key > f cur then key else cur) a
        else k := by
  intro ks
  induction ks with
  | nil => intro k a; rfl
  | cons c ks ih =>
    intro k a
    simp only [List.foldl_cons]
    by_cases hak : f a > f k
    · simp only [if_pos hak]
      have hY : f a ≤ f (if f c > f a then c else a) := by
        by_cases hc : f c > f a
        · simp only [if_pos hc]; omega
        · simp only [if_neg hc]; exact Nat.le_refl _
      have hfold := foldl_scan_ge f ks (if f c > f a then c else a)
      have hcond :
          f (List.foldl (fun cur key => if f key > f cur then key else cur)
              (if f c > f a then c else a) ks) > f k := by omega
      rw [if_pos hcond]
    · simp only [if_neg hak]
      rw [ih k c, ih a c]
      generalize List.foldl (fun cur key => if f key > f cur then key else cur) c ks = N
      by_cases hNa : f N > f a
      · simp only [if_pos hNa]
      · simp only [if_neg hNa]
        rw [if_neg hak]
        have hNk : ¬ f N > f k := by omega
        rw [if_neg hNk]

/-- The spec's scan maximum of a non-empty symbol list equals the source's
left-to-right fold. -/
theorem scanMax_cons (f : Nat → Nat) :
    ∀ (ks : List Nat) (k : Nat),
      scanMax f (k :: ks) =
        some (ks.foldl (fun cur key => if f key > f cur then key else cur) k) := by
  intro ks
  induction ks with
  | nil => intro k; rfl
  | cons a ks ih =>
    intro k
    show (match scanMax f (a :: ks) with
          | none => some k
          | some m => some (if f m > f k then m else k)) = _
    rw [ih a]
    simp only [List.foldl_cons]
    show some _ = some _
    congr 1
    have := foldl_pick f ks k a
    rw [this]

/-- The helper `find_biggest_key` computes exactly the spec's scan maximum of the
table's symbols. -/
theorem find_biggest_key_eq (freq : List (Nat × Nat)) :
    find_biggest_key freq = scanMax (lookupD freq) (freq.map Prod.fst) := by
  unfold find_biggest_key
  cases h : freq.map Prod.fst with
  | nil => rfl
  | cons k ks => rw [scanMax_cons]

/-- The source's `temp` loop produces the spec's descending symbol order. -/
theorem buildTempFuel_eq_specOrderFuel :
    ∀ (n : Nat) (freq : List (Nat × Nat)), buildTempFuel n freq = specOrderFuel n freq := by
  intro n
  induction n with
  | zero => intro freq; rfl
  | succ n ih =>
    intro freq
    show (match find_biggest_key freq with
          | none => []
          | some b => b :: buildTempFuel n (removeKey freq b)) =
        (match scanMax (lookupD freq) (freq.map Prod.fst) with
          | none => []
          | some b => b :: specOrderFuel n (removeKey freq b))
    rw [find_biggest_key_eq]
    cases scanMax (lookupD freq) (freq.map Prod.fst) with
    | none => rfl
    | some b =>
      show _ :: _ = _ :: _
      rw [ih]

/-- The source merge loop on the front-first queue equals the spec merge on
the tail-first queue, given enough fuel. -/
theorem mergeLoopFuel_eq_mergeQueueRev :
    ∀ (fuel : Nat) (l : List HuffmanNode), l.length ≤ fuel →
      mergeLoopFuel fuel l = mergeQueueRev l.reverse := by
  intro fuel
  induction fuel with
  | zero =>
    intro l hl
    have hnil : l = [] := List.eq_nil_of_length_eq_zero (Nat.le_zero.mp hl)
    subst hnil
    simp [mergeLoopFuel, mergeQueueRev]
  | succ fuel ih =>
    intro l hl
    rcases List.eq_nil_or_concat l with rfl | ⟨d, a, rfl⟩
    · simp [mergeLoopFuel, mergeQueueRev]
    · rw [List.concat_eq_append]
      rw [List.concat_eq_append] at hl
      rcases List.eq_nil_or_concat d with rfl | ⟨e, b, rfl⟩
      · simp [mergeLoopFuel, mergeQueueRev]
      · rw [List.concat_eq_append]
        rw [List.concat_eq_append] at hl
        have step1 : mergeLoopFuel (fuel + 1) ((e ++ [b]) ++ [a])
            = mergeLoopFuel fuel (HuffmanNode.node a b none :: e) := by
          show (match ((e ++ [b]) ++ [a]).getLast? with
                | none => none
                | some first =>
                  match ((e ++ [b]) ++ [a]).dropLast.getLast? with
                  | none => some first
                  | some second =>
                    mergeLoopFuel fuel
                      (HuffmanNode.node first second none ::
                        ((e ++ [b]) ++ [a]).dropLast.dropLast)) = _
          rw [List.getLast?_concat, List.dropLast_concat, List.getLast?_concat,
            List.dropLast_concat]
        rw [step1]
        have hlen : (HuffmanNode.node a b none :: e).length ≤ fuel := by
          simp only [List.length_append, List.length_cons, List.length_nil] at hl ⊢
          omega
        rw [ih _ hlen]
        have hrev1 : ((e ++ [b]) ++ [a]).reverse = a :: b :: e.reverse := by simp
        have hrev2 : (HuffmanNode.node a b none :: e).reverse
            = e.reverse ++ [HuffmanNode.node a b none] := by simp
        rw [hrev1, hrev2]
        rw [show mergeQueueRev (a :: b :: e.reverse)
            = mergeQueueRev (e.reverse ++ [HuffmanNode.node a b none]) from by
          simp [mergeQueueRev]]

/-- The spec merge of a non-empty queue always yields a root. -/
theorem mergeQueueRev_isSome :
    ∀ (n : Nat) (l : List HuffmanNode), l.length ≤ n → l ≠ [] →
      ∃ t, mergeQueueRev l = some t := by
  intro n
  induction n with
  | zero =>
    intro l hl hne
    exact absurd (List.eq_nil_of_length_eq_zero (Nat.le_zero.mp hl)) hne
  | succ n ih =>
    intro l hl hne
    rcases l with _ | ⟨a, _ | ⟨b, rest⟩⟩
    · exact absurd rfl hne
    · exact ⟨a, by simp [mergeQueueRev]⟩
    · have hlen : (rest ++ [HuffmanNode.node a b none]).length ≤ n := by
        simp only [List.length_append, List.length_cons, List.length_nil] at hl ⊢
        omega
      obtain ⟨t, ht⟩ := ih (rest ++ [HuffmanNode.node a b none]) hlen (by simp)
      refine ⟨t, ?_⟩
      rw [show mergeQueueRev (a :: b :: rest)
          = mergeQueueRev (rest ++ [HuffmanNode.node a b none]) from by
        simp [mergeQueueRev]]
      exact ht

/-- A non-empty table yields a non-empty spec order. -/
theorem specOrder_ne_nil (freq : List (Nat × Nat)) (h : freq ≠ []) :
    specOrder freq ≠ [] := by
  unfold specOrder
  cases freq with
  | nil => exact absurd rfl h
  | cons p rest =>
    show specOrderFuel (p :: rest).length (p :: rest) ≠ []
    rw [show (p :: rest).length = rest.length + 1 from rfl]
    show (match scanMax (lookupD (p :: rest)) ((p :: rest).map Prod.fst) with
          | none => []
          | some b => b :: specOrderFuel rest.length (removeKey (p :: rest) b)) ≠ []
    rw [show (p :: rest).map Prod.fst = p.1 :: rest.map Prod.fst from rfl]
    rw [scanMax_cons]
    simp

/-- Claim C2: for every non-empty frequency table, `huffman_tree` returns
exactly the tree of the documented deterministic merge policy: symbols
ordered by descending frequency (ties to the first symbol reaching the
maximum in a left-to-right scan), materialized as a front-first queue of
leaves, then repeatedly merging the two tail nodes (left = first removed,
right = second removed) and reinserting the merge at the head until a single
root remains. -/
theorem c2_huffman_tree_merge_policy (freq_dict : List (Nat × Nat))
    (h : freq_dict ≠ []) :
    ∃ t, huffman_tree freq_dict = some t ∧ huffmanTreeSpec freq_dict = some t := by
  have hnodes :
      (((buildTemp freq_dict).reverse).map (fun s => HuffmanNode.leaf s none)).reverse
        = (buildTemp freq_dict).map (fun s => HuffmanNode.leaf s none) := by
    rw [List.map_reverse, List.reverse_reverse]
  have horder : buildTemp freq_dict = specOrder freq_dict :=
    buildTempFuel_eq_specOrderFuel _ _
  have hqne :
      (((specOrder freq_dict).map (fun s => HuffmanNode.leaf s none)).reverse) ≠ [] := by
    have := specOrder_ne_nil freq_dict h
    simpa using this
  obtain ⟨t, ht⟩ := mergeQueueRev_isSome
    (((specOrder freq_dict).map (fun s => HuffmanNode.leaf s none)).reverse).length
    _ le_rfl hqne
  refine ⟨t, ?_, ht⟩
  show mergeLoop
      ((((buildTemp freq_dict).reverse).map (fun s => HuffmanNode.leaf s none)).reverse)
    = some t
  rw [hnodes, horder]
  show mergeLoopFuel ((specOrder freq_dict).map (fun s => HuffmanNode.leaf s none)).length
      ((specOrder freq_dict).map (fun s => HuffmanNode.leaf s none)) = some t
  rw [mergeLoopFuel_eq_mergeQueueRev _ _ le_rfl]
  exact ht

/-- Witness for C2 at the table of the source's own doctest, `{2: 6, 3: 4}`. -/
theorem c2_huffman_tree_merge_policy_witness :
    ([((2 : Nat), (6 : Nat)), (3, 4)] ≠ ([] : List (Nat × Nat))) ∧
    ∃ t, huffman_tree [(2, 6), (3, 4)] = some t ∧
      huffmanTreeSpec [(2, 6), (3, 4)] = some t :=
  ⟨by decide, c2_huffman_tree_merge_policy [(2, 6), (3, 4)] (by decide)⟩

/-! ## Correctness of `get_codes` (claim C3) -/

/-- Looking up an absent key fails. -/
theorem dlookup_eq_none {κ α : Type} [DecidableEq κ] :
    ∀ (d : List (κ × α)) (k : κ), k ∉ d.map Prod.fst → dlookup d k = none := by
  intro d
  induction d with
  | nil => intro k _; rfl
  | cons p rest ih =>
    intro k hk
    simp only [List.map_cons, List.mem_cons] at hk
    push_neg at hk
    show (if p.1 = k then some p.2 else dlookup rest k) = none
    rw [if_neg (fun he => hk.1 he.symm), ih k hk.2]

/-- Assigning to an absent key appends the entry. -/
theorem dinsert_absent {κ α : Type} [DecidableEq κ] (d : List (κ × α)) (k : κ)
    (v : α) (h : k ∉ d.map Prod.fst) : dinsert d k v = d ++ [(k, v)] := by
  unfold dinsert
  rw [dlookup_eq_none d k h]
  rfl

/-- Updating with entries whose keys are fresh and mutually distinct is plain
concatenation. -/
theorem dupdate_append {κ α : Type} [DecidableEq κ] :
    ∀ (e d : List (κ × α)), (e.map Prod.fst).Nodup →
      (∀ x ∈ e.map Prod.fst, x ∉ d.map Prod.fst) → dupdate d e = d ++ e := by
  intro e
  induction e with
  | nil => intro d _ _; simp [dupdate]
  | cons p e ih =>
    intro d hnd hdisj
    simp only [List.map_cons, List.nodup_cons] at hnd
    show dupdate (dinsert d p.1 p.2) e = d ++ p :: e
    rw [dinsert_absent d p.1 p.2 (hdisj p.1 (by simp))]
    have hdisj' : ∀ x ∈ e.map Prod.fst, x ∉ (d ++ [p]).map Prod.fst := by
      intro x hx
      simp only [List.map_append, List.mem_append, List.map_cons, List.map_nil,
        List.mem_singleton]
      push_neg
      refine ⟨hdisj x (by simp [hx]), ?_⟩
      intro he
      exact hnd.1 (he ▸ hx)
    rw [ih (d ++ [p]) hnd.2 hdisj']
    simp

/-- The keys of the path table are the leaf symbols, in order. -/
theorem leafPaths_keys : ∀ t : HuffmanNode,
    (leafPaths t).map Prod.fst = leafSymbols t := by
  intro t
  induction t with
  | leaf s num => rfl
  | node l r num ihl ihr =>
    show (((leafPaths l).map (fun p => (p.1, false :: p.2))
        ++ (leafPaths r).map (fun p => (p.1, true :: p.2))).map Prod.fst)
      = leafSymbols l ++ leafSymbols r
    rw [List.map_append, List.map_map, List.map_map]
    rw [show (Prod.fst ∘ fun p : Nat × List Bool => (p.1, false :: p.2))
        = Prod.fst from rfl]
    rw [show (Prod.fst ∘ fun p : Nat × List Bool => (p.1, true :: p.2))
        = Prod.fst from rfl]
    rw [ihl, ihr]

/-- Keys of a bit-prefixed path table. -/
theorem leafPaths_pre_keys (b : Bool) (t : HuffmanNode) :
    ((leafPaths t).map (fun p => (p.1, b :: p.2))).map Prod.fst = leafSymbols t := by
  rw [List.map_map]
  rw [show (Prod.fst ∘ fun p : Nat × List Bool => (p.1, b :: p.2))
      = Prod.fst from rfl]
  exact leafPaths_keys t

/-- With distinct leaf symbols, `get_codes` of a tree with an Internal root
is exactly the table of root-to-leaf path codes. -/
theorem get_codes_eq_leafPaths : ∀ t : HuffmanNode,
    (leafSymbols t).Nodup → isInternal t = true → get_codes t = leafPaths t := by
  intro t
  induction t with
  | leaf s num => intro _ h; simp [isInternal] at h
  | node l r num ihl ihr =>
    intro hnd _
    obtain ⟨hndl, hndr, hdisj⟩ :=
      List.nodup_append.mp (show (leafSymbols l ++ leafSymbols r).Nodup from hnd)
    cases l with
    | leaf s1 m1 =>
      cases r with
      | leaf s2 m2 =>
        show dinsert (dinsert [] s1 [false]) s2 [true] = _
        rw [show dinsert ([] : List (Nat × List Bool)) s1 [false]
            = [(s1, [false])] from rfl]
        rw [dinsert_absent [(s1, [false])] s2 [true] (by
          intro hc
          simp only [List.map_cons, List.map_nil, List.mem_singleton] at hc
          exact hdisj (show s1 ∈ leafSymbols (HuffmanNode.leaf s1 m1) by simp [leafSymbols])
            (show s1 ∈ leafSymbols (HuffmanNode.leaf s2 m2) by simp [leafSymbols, hc]))]
        rfl
      | node a2 b2 m2 =>
        show dupdate (dinsert [] s1 [false])
            ((get_codes (HuffmanNode.node a2 b2 m2)).map (fun p => (p.1, true :: p.2)))
          = _
        rw [ihr hndr rfl]
        rw [show dinsert ([] : List (Nat × List Bool)) s1 [false]
            = [(s1, [false])] from rfl]
        rw [dupdate_append _ _ (by rw [leafPaths_pre_keys]; exact hndr) (by
          intro x hx
          rw [leafPaths_pre_keys] at hx
          intro hc
          simp only [List.map_cons, List.map_nil, List.mem_singleton] at hc
          exact hdisj (by simp [leafSymbols, hc]) hx)]
        rfl
    | node a1 b1 m1 =>
      have hL : dupdate []
          ((get_codes (HuffmanNode.node a1 b1 m1)).map (fun p => (p.1, false :: p.2)))
          = (leafPaths (HuffmanNode.node a1 b1 m1)).map (fun p => (p.1, false :: p.2)) := by
        rw [ihl hndl rfl]
        rw [dupdate_append _ _ (by rw [leafPaths_pre_keys]; exact hndl)
          (by intro x _ hc; simp at hc)]
        rfl
      cases r with
      | leaf s2 m2 =>
        show dinsert (dupdate []
            ((get_codes (HuffmanNode.node a1 b1 m1)).map (fun p => (p.1, false :: p.2))))
            s2 [true] = _
        rw [hL]
        rw [dinsert_absent _ s2 [true] (by
          rw [leafPaths_pre_keys]
          intro hc
          exact hdisj hc (by simp [leafSymbols]))]
        rfl
      | node a2 b2 m2 =>
        show dupdate (dupdate []
            ((get_codes (HuffmanNode.node a1 b1 m1)).map (fun p => (p.1, false :: p.2))))
            ((get_codes (HuffmanNode.node a2 b2 m2)).map (fun p => (p.1, true :: p.2)))
          = _
        rw [hL, ihr hndr rfl]
        rw [dupdate_append _ _ (by rw [leafPaths_pre_keys]; exact hndr) (by
          intro x hx
          rw [leafPaths_pre_keys] at hx
          rw [leafPaths_pre_keys]
          intro hc
          exact hdisj hc hx)]
        rfl

/-- The path codes of distinct leaf positions never prefix one another:
within a subtree by induction, across the two subtrees because the codes
start with different bits. -/
theorem leafPaths_pairwise : ∀ t : HuffmanNode,
    (leafPaths t).Pairwise (fun p q => ¬ p.2 <+: q.2 ∧ ¬ q.2 <+: p.2) := by
  intro t
  induction t with
  | leaf s num => simp [leafPaths]
  | node l r num ihl ihr =>
    show ((leafPaths l).map (fun p => (p.1, false :: p.2))
        ++ (leafPaths r).map (fun p => (p.1, true :: p.2))).Pairwise _
    rw [List.pairwise_append]
    refine ⟨?_, ?_, ?_⟩
    · rw [List.pairwise_map]
      refine ihl.imp ?_
      intro a b hab
      exact ⟨fun hp => hab.1 (List.cons_prefix_cons.mp hp).2,
        fun hp => hab.2 (List.cons_prefix_cons.mp hp).2⟩
    · rw [List.pairwise_map]
      refine ihr.imp ?_
      intro a b hab
      exact ⟨fun hp => hab.1 (List.cons_prefix_cons.mp hp).2,
        fun hp => hab.2 (List.cons_prefix_cons.mp hp).2⟩
    · intro a ha b hb
      obtain ⟨pa, _, rfl⟩ := List.mem_map.mp ha
      obtain ⟨pb, _, rfl⟩ := List.mem_map.mp hb
      exact ⟨fun hp => by simpa using (List.cons_prefix_cons.mp hp).1,
        fun hp => by simpa using (List.cons_prefix_cons.mp hp).1⟩

/-- One path-code entry per leaf. -/
theorem leafPaths_length : ∀ t : HuffmanNode,
    (leafPaths t).length = (leafSymbols t).length := by
  intro t
  induction t with
  | leaf s num => rfl
  | node l r num ihl ihr =>
    show ((leafPaths l).map _ ++ (leafPaths r).map _).length
      = (leafSymbols l ++ leafSymbols r).length
    simp only [List.length_append, List.length_map, ihl, ihr]

/-- Claim C3: for a tree with an Internal root and pairwise-distinct leaf
symbols, `get_codes` is the table of root-to-leaf path bitstrings (left edge
"0" = false, right edge "1" = true, so a direct leaf child's code is one bit
longer than the path to its parent), with one entry per leaf, and no code is
a prefix of another (equal codes being mutual prefixes, all codes are also
distinct). -/
theorem c3_get_codes_paths_and_no_code_prefixes_another
    (l r : HuffmanNode) (num : Option Nat)
    (h : (leafSymbols (HuffmanNode.node l r num)).Nodup) :
    get_codes (HuffmanNode.node l r num) = leafPaths (HuffmanNode.node l r num) ∧
    (get_codes (HuffmanNode.node l r num)).length
      = (leafSymbols (HuffmanNode.node l r num)).length ∧
    (get_codes (HuffmanNode.node l r num)).Pairwise
      (fun p q => ¬ p.2 <+: q.2 ∧ ¬ q.2 <+: p.2) := by
  have heq := get_codes_eq_leafPaths (HuffmanNode.node l r num) h rfl
  refine ⟨heq, ?_, ?_⟩
  · rw [heq, leafPaths_length]
  · rw [heq]
    exact leafPaths_pairwise _

/-- Witness for C3 at the two-leaf tree of the source's `get_codes` doctest. -/
theorem c3_get_codes_witness :
    (leafSymbols (HuffmanNode.node (HuffmanNode.leaf 3 none)
      (HuffmanNode.leaf 2 none) none)).Nodup ∧
    (get_codes (HuffmanNode.node (HuffmanNode.leaf 3 none) (HuffmanNode.leaf 2 none) none)
        = leafPaths (HuffmanNode.node (HuffmanNode.leaf 3 none) (HuffmanNode.leaf 2 none) none) ∧
      (get_codes (HuffmanNode.node (HuffmanNode.leaf 3 none) (HuffmanNode.leaf 2 none) none)).length
        = (leafSymbols (HuffmanNode.node (HuffmanNode.leaf 3 none) (HuffmanNode.leaf 2 none) none)).length ∧
      (get_codes (HuffmanNode.node (HuffmanNode.leaf 3 none) (HuffmanNode.leaf 2 none) none)).Pairwise
        (fun p q => ¬ p.2 <+: q.2 ∧ ¬ q.2 <+: p.2)) :=
  ⟨by decide, c3_get_codes_paths_and_no_code_prefixes_another
    (HuffmanNode.leaf 3 none) (HuffmanNode.leaf 2 none) none (by decide)⟩

/-! ## Concrete evaluations settling the remaining claims -/

/-- Claim C1 (code bug): the codec does not round-trip.  On S = [65, 66] the
pipeline produces the tree, codes and packed byte as expected, but
`generate_uncompressed` is an unimplemented stub returning None, not S. -/
theorem c1_roundtrip_fails_eval :
    make_freq_dict [65, 66] = [(65, 1), (66, 1)] ∧
    huffman_tree [(65, 1), (66, 1)]
      = some (HuffmanNode.node (HuffmanNode.leaf 66 none) (HuffmanNode.leaf 65 none) none) ∧
    generate_compressed [65, 66]
      (get_codes (HuffmanNode.node (HuffmanNode.leaf 66 none) (HuffmanNode.leaf 65 none) none))
      = some [128] ∧
    generate_uncompressed
      (HuffmanNode.node (HuffmanNode.leaf 66 none) (HuffmanNode.leaf 65 none) none) [128] 2
      = none := by decide

/-- Claim C4 (code bug): the claim's own example [1, 2, 1, 0] does pack to
the byte 10111000 = 184, but on [1, 2, 1, 0, 2, 2] (11 code bits) the code
returns [185, 224, 0, 0] while the spec's 8-bit-group packing gives
[185, 224]: two spurious zero bytes are appended. -/
theorem c4_generate_compressed_eval :
    generate_compressed [1, 2, 1, 0] [(0, [false]), (1, [true, false]), (2, [true, true])]
      = some [184] ∧
    generate_compressed [1, 2, 1, 0, 2, 2] [(0, [false]), (1, [true, false]), (2, [true, true])]
      = some [185, 224, 0, 0] ∧
    (concatCodes [(0, [false]), (1, [true, false]), (2, [true, true])]
        [1, 2, 1, 0, 2, 2]).map packBitsSpec = some [185, 224] ∧
    generate_compressed [1, 2, 1, 0, 2, 2] [(0, [false]), (1, [true, false]), (2, [true, true])]
      ≠ (concatCodes [(0, [false]), (1, [true, false]), (2, [true, true])]
        [1, 2, 1, 0, 2, 2]).map packBitsSpec := by decide

/-- Claim C5 (code bug): the header byte of a numbered single-internal-node
tree is 3 (the root's number is always forced to 2), not the internal node
count 1; and for a right internal child the records are interleaved
([0,3,0,2, 1,0,0,9, 0,10,1,1]) instead of one (flag, value, flag, value)
record per internal node in postorder ([0,3,0,2, 0,9,0,10, 1,0,1,1]). -/
theorem c5_serialization_eval :
    num_nodes_to_bytes (number_nodes
      (HuffmanNode.node (HuffmanNode.leaf 3 none) (HuffmanNode.leaf 2 none) none)) = some [3] ∧
    internalCount (HuffmanNode.node (HuffmanNode.leaf 3 none) (HuffmanNode.leaf 2 none) none) = 1 ∧
    tree_to_bytes (number_nodes (HuffmanNode.node
      (HuffmanNode.node (HuffmanNode.leaf 3 none) (HuffmanNode.leaf 2 none) none)
      (HuffmanNode.node (HuffmanNode.leaf 9 none) (HuffmanNode.leaf 10 none) none) none))
      = some [0, 3, 0, 2, 1, 0, 0, 9, 0, 10, 1, 1] ∧
    some [0, 3, 0, 2, 1, 0, 0, 9, 0, 10, 1, 1]
      ≠ (some [0, 3, 0, 2, 0, 9, 0, 10, 1, 0, 1, 1] : Option (List Nat)) := by decide

/-- Claim C6 (code bug): serializing the numbered tree ((3, 2), 5) (2 internal
nodes, root index 1) and deserializing with `generate_tree_general` yields a
tree with code table {0: "00", 5: "1"}, not the original
{3: "00", 2: "01", 5: "1"}; `generate_tree_postorder` on the same input
builds a root with a missing left child, on which `get_codes` crashes. -/
theorem c6_tree_roundtrip_eval :
    internalCount (HuffmanNode.node
      (HuffmanNode.node (HuffmanNode.leaf 3 none) (HuffmanNode.leaf 2 none) none)
      (HuffmanNode.leaf 5 none) none) = 2 ∧
    (do
      let bs ← tree_to_bytes (number_nodes (HuffmanNode.node
        (HuffmanNode.node (HuffmanNode.leaf 3 none) (HuffmanNode.leaf 2 none) none)
        (HuffmanNode.leaf 5 none) none))
      let ns ← bytes_to_nodes bs
      let t ← generate_tree_general ns 1
      getCodesP t)
      = some [(some 0, [false, false]), (some 5, [true])] ∧
    (get_codes (HuffmanNode.node
      (HuffmanNode.node (HuffmanNode.leaf 3 none) (HuffmanNode.leaf 2 none) none)
      (HuffmanNode.leaf 5 none) none)).map (fun p => ((some p.1 : Option Nat), p.2))
      = [(some 3, [false, false]), (some 2, [false, true]), (some 5, [true])] ∧
    (do
      let bs ← tree_to_bytes (number_nodes (HuffmanNode.node
        (HuffmanNode.node (HuffmanNode.leaf 3 none) (HuffmanNode.leaf 2 none) none)
        (HuffmanNode.leaf 5 none) none))
      let ns ← bytes_to_nodes bs
      let t ← generate_tree_postorder ns 1
      getCodesP t) = none := by decide

/-- Claim C7 (code bug): on the left-deep tree (((1, 2), 3), 4) the code
assigns the internal nodes the numbers [0, 0, 2] in postorder (duplicated,
and the root is forced to 2), and numbers every leaf, against the claimed
unique postorder numbering 0, 1, 2 with unnumbered leaves. -/
theorem c7_number_nodes_eval :
    internalNumbers (number_nodes (HuffmanNode.node
      (HuffmanNode.node
        (HuffmanNode.node (HuffmanNode.leaf 1 none) (HuffmanNode.leaf 2 none) none)
        (HuffmanNode.leaf 3 none) none)
      (HuffmanNode.leaf 4 none) none)) = [some 0, some 0, some 2] ∧
    ¬ ([some 0, some 0, some 2] : List (Option Nat)).Nodup ∧
    leafNumbers (number_nodes (HuffmanNode.node
      (HuffmanNode.node
        (HuffmanNode.node (HuffmanNode.leaf 1 none) (HuffmanNode.leaf 2 none) none)
        (HuffmanNode.leaf 3 none) none)
      (HuffmanNode.leaf 4 none) none)) = [some 0, some 1, some 1, some 1] := by decide

/-- Counterexample to claim C8 as stated: on the single-symbol table
{5: 10}, `huffman_tree` returns the bare Leaf for 5 - not an Internal node
with two leaf children - and `get_codes` of that result is empty, so symbol
5 gets no code at all. -/
theorem c8_single_symbol_counterexample :
    huffman_tree [(5, 10)] = some (HuffmanNode.leaf 5 none) ∧
    isInternal (HuffmanNode.leaf 5 none) = false ∧
    get_codes (HuffmanNode.leaf 5 none) = [] := by decide

/-- Claim C8 as amended: for every frequency table with exactly one symbol
s, `huffman_tree` returns the single Leaf node for s (no Internal root is
synthesized) and `get_codes` of that result is the empty table. -/
theorem c8_single_symbol_amended (s c : Nat) :
    huffman_tree [(s, c)] = some (HuffmanNode.leaf s none) ∧
    get_codes (HuffmanNode.leaf s none) = [] :=
  ⟨rfl, rfl⟩

/-- Claim C9 (code bug): `improve_tree` is an unimplemented stub that leaves
its own doctest tree unchanged at weighted average 249/100 = 2.49 bits,
while the same shape admits the assignment of its doctest's expected value
231/100 = 2.31, so the result is not minimal and the doctest fails. -/
theorem c9_improve_tree_eval :
    improve_tree (HuffmanNode.node
        (HuffmanNode.node (HuffmanNode.leaf 99 none) (HuffmanNode.leaf 100 none) none)
        (HuffmanNode.node (HuffmanNode.leaf 101 none)
          (HuffmanNode.node (HuffmanNode.leaf 97 none) (HuffmanNode.leaf 98 none) none) none)
        none)
      [(97, 26), (98, 23), (99, 20), (100, 16), (101, 15)]
      = (HuffmanNode.node
        (HuffmanNode.node (HuffmanNode.leaf 99 none) (HuffmanNode.leaf 100 none) none)
        (HuffmanNode.node (HuffmanNode.leaf 101 none)
          (HuffmanNode.node (HuffmanNode.leaf 97 none) (HuffmanNode.leaf 98 none) none) none)
        none) ∧
    avg_length (HuffmanNode.node
        (HuffmanNode.node (HuffmanNode.leaf 99 none) (HuffmanNode.leaf 100 none) none)
        (HuffmanNode.node (HuffmanNode.leaf 101 none)
          (HuffmanNode.node (HuffmanNode.leaf 97 none) (HuffmanNode.leaf 98 none) none) none)
        none)
      [(97, 26), (98, 23), (99, 20), (100, 16), (101, 15)]
      = some (((249 : Nat) : ℚ) / ((100 : Nat) : ℚ)) ∧
    sameShape (HuffmanNode.node
        (HuffmanNode.node (HuffmanNode.leaf 99 none) (HuffmanNode.leaf 100 none) none)
        (HuffmanNode.node (HuffmanNode.leaf 101 none)
          (HuffmanNode.node (HuffmanNode.leaf 97 none) (HuffmanNode.leaf 98 none) none) none)
        none)
      (HuffmanNode.node
        (HuffmanNode.node (HuffmanNode.leaf 97 none) (HuffmanNode.leaf 98 none) none)
        (HuffmanNode.node (HuffmanNode.leaf 99 none)
          (HuffmanNode.node (HuffmanNode.leaf 100 none) (HuffmanNode.leaf 101 none) none) none)
        none) = true ∧
    avg_length (HuffmanNode.node
        (HuffmanNode.node (HuffmanNode.leaf 97 none) (HuffmanNode.leaf 98 none) none)
        (HuffmanNode.node (HuffmanNode.leaf 99 none)
          (HuffmanNode.node (HuffmanNode.leaf 100 none) (HuffmanNode.leaf 101 none) none) none)
        none)
      [(97, 26), (98, 23), (99, 20), (100, 16), (101, 15)]
      = some (((231 : Nat) : ℚ) / ((100 : Nat) : ℚ)) ∧
    (((231 : Nat) : ℚ) / ((100 : Nat) : ℚ)) < (((249 : Nat) : ℚ) / ((100 : Nat) : ℚ)) := by
  refine ⟨rfl, rfl, rfl, rfl, by norm_num⟩

/-- Claim C10: on the empty frequency table `huffman_tree` fails - the merge
loop pops from an empty node list, raising an uncaught exception - and no
tree is produced.  (The spec calls this failure condition EmptyInputError;
the code has no error classes, so the embedding records it as `none`.) -/
theorem c10_empty_table_fails : huffman_tree [] = none := rfl

/-! ## The tree built by `huffman_tree` carries exactly the table's symbols

These lemmas ground the distinct-leaf-symbols hypothesis of claim C3: a tree
built from a frequency table (whose keys are distinct, as in any Python
dict) has pairwise-distinct leaf symbols. -/

/-- The scan maximum is one of the scanned symbols. -/
theorem scanMax_mem (f : Nat → Nat) :
    ∀ (l : List Nat) (b : Nat), scanMax f l = some b → b ∈ l := by
  intro l
  induction l with
  | nil => intro b h; exact absurd h (by simp [scanMax])
  | cons k ks ih =>
    intro b h
    show b ∈ k :: ks
    cases hm : scanMax f ks with
    | none =>
      rw [show scanMax f (k :: ks)
          = (match scanMax f ks with
             | none => some k
             | some m => some (if f m > f k then m else k)) from rfl, hm] at h
      exact (Option.some_inj.mp h) ▸ List.mem_cons_self k ks
    | some m =>
      rw [show scanMax f (k :: ks)
          = (match scanMax f ks with
             | none => some k
             | some m => some (if f m > f k then m else k)) from rfl, hm] at h
      have hb := Option.some_inj.mp h
      by_cases hc : f m > f k
      · rw [if_pos hc] at hb
        exact List.mem_cons_of_mem k (hb ▸ ih m hm)
      · rw [if_neg hc] at hb
        exact hb ▸ List.mem_cons_self k ks

/-- Deleting a key deletes exactly its first occurrence from the key list. -/
theorem removeKey_map_fst :
    ∀ (freq : List (Nat × Nat)) (k : Nat),
      (removeKey freq k).map Prod.fst = (freq.map Prod.fst).erase k := by
  intro freq
  induction freq with
  | nil => intro k; rfl
  | cons p rest ih =>
    intro k
    by_cases h : p.1 = k
    · simp [removeKey, List.erase_cons, h]
    · simp [removeKey, List.erase_cons, h, ih]

/-- Deleting a present key shortens the table by one entry. -/
theorem removeKey_length :
    ∀ (freq : List (Nat × Nat)) (k : Nat), k ∈ freq.map Prod.fst →
      (removeKey freq k).length + 1 = freq.length := by
  intro freq
  induction freq with
  | nil => intro k h; simp at h
  | cons p rest ih =>
    intro k h
    by_cases hp : p.1 = k
    · simp [removeKey, hp]
    · have hk : k ∈ rest.map Prod.fst := by
        simp only [List.map_cons, List.mem_cons] at h
        rcases h with h | h
        · exact absurd h.symm hp
        · exact h
      simp only [removeKey, if_neg hp, List.length_cons]
      rw [← ih k hk]

/-- The spec order is a permutation of the table's keys. -/
theorem specOrderFuel_perm :
    ∀ (n : Nat) (freq : List (Nat × Nat)), freq.length = n →
      (specOrderFuel n freq).Perm (freq.map Prod.fst) := by
  intro n
  induction n with
  | zero =>
    intro freq hlen
    rw [List.eq_nil_of_length_eq_zero hlen]
    exact List.Perm.refl _
  | succ n ih =>
    intro freq hlen
    cases freq with
    | nil => simp at hlen
    | cons p rest =>
      cases hm : scanMax (lookupD (p :: rest)) ((p :: rest).map Prod.fst) with
      | none =>
        rw [show (p :: rest).map Prod.fst = p.1 :: rest.map Prod.fst from rfl,
          scanMax_cons] at hm
        exact absurd hm (by simp)
      | some b =>
        rw [show specOrderFuel (n + 1) (p :: rest)
            = (match scanMax (lookupD (p :: rest)) ((p :: rest).map Prod.fst) with
               | none => []
               | some b => b :: specOrderFuel n (removeKey (p :: rest) b)) from rfl,
          hm]
        have hb : b ∈ (p :: rest).map Prod.fst := scanMax_mem _ _ _ hm
        have hlen2 : (removeKey (p :: rest) b).length = n := by
          have h3 := removeKey_length (p :: rest) b hb
          rw [hlen] at h3
          omega
        have ihp := ih (removeKey (p :: rest) b) hlen2
        rw [removeKey_map_fst] at ihp
        exact (ihp.cons b).trans (List.perm_cons_erase hb).symm

/-- Flattening singleton blocks is the identity. -/
theorem flatten_map_singleton :
    ∀ l : List Nat, (l.map (fun s => ([s] : List Nat))).flatten = l := by
  intro l
  induction l with
  | nil => rfl
  | cons a l ih => simp [ih]

/-- The root produced by the spec merge carries the leaf symbols of the whole
queue (as a multiset). -/
theorem mergeQueueRev_leafSymbols :
    ∀ (n : Nat) (l : List HuffmanNode) (t : HuffmanNode), l.length ≤ n →
      mergeQueueRev l = some t →
      (leafSymbols t).Perm ((l.map leafSymbols).flatten) := by
  intro n
  induction n with
  | zero =>
    intro l t hl h
    rw [List.eq_nil_of_length_eq_zero (Nat.le_zero.mp hl)] at h
    simp [mergeQueueRev] at h
  | succ n ih =>
    intro l t hl h
    rcases l with _ | ⟨a, _ | ⟨b, rest⟩⟩
    · simp [mergeQueueRev] at h
    · have ha : a = t := by simpa [mergeQueueRev] using h
      subst ha
      simp
    · rw [show mergeQueueRev (a :: b :: rest)
          = mergeQueueRev (rest ++ [HuffmanNode.node a b none]) from by
        simp [mergeQueueRev]] at h
      have hlen : (rest ++ [HuffmanNode.node a b none]).length ≤ n := by
        simp only [List.length_append, List.length_cons, List.length_nil] at hl ⊢
        omega
      have hperm := ih (rest ++ [HuffmanNode.node a b none]) t hlen h
      refine hperm.trans ?_
      simp only [List.map_append, List.flatten_append, List.map_cons, List.map_nil,
        List.flatten_cons, List.flatten_nil, List.append_nil]
      show ((rest.map leafSymbols).flatten ++ (leafSymbols a ++ leafSymbols b)).Perm
        (leafSymbols a ++ (leafSymbols b ++ (rest.map leafSymbols).flatten))
      have := @List.perm_append_comm Nat
        ((rest.map leafSymbols).flatten) (leafSymbols a ++ leafSymbols b)
      simpa [List.append_assoc] using this

/-- The leaf symbols of the tree built by `huffman_tree` are a permutation of
the frequency table's keys. -/
theorem huffman_tree_leafSymbols_perm (freq : List (Nat × Nat)) (t : HuffmanNode)
    (h : huffman_tree freq = some t) :
    (leafSymbols t).Perm (freq.map Prod.fst) := by
  have h2 : mergeQueueRev
      ((((buildTemp freq).reverse).map (fun s => HuffmanNode.leaf s none)).reverse.reverse)
      = some t := by
    rw [← mergeLoopFuel_eq_mergeQueueRev _ _ le_rfl]
    exact h
  rw [List.reverse_reverse, List.map_reverse] at h2
  have hperm := mergeQueueRev_leafSymbols
    (((buildTemp freq).map (fun s => HuffmanNode.leaf s none)).reverse).length _ t
    le_rfl h2
  refine hperm.trans ?_
  rw [List.map_reverse]
  refine (List.reverse_perm _).flatten.trans ?_
  rw [List.map_map]
  rw [show (leafSymbols ∘ fun s => HuffmanNode.leaf s none) = fun s => ([s] : List Nat)
    from rfl]
  rw [flatten_map_singleton]
  rw [show buildTemp freq = specOrderFuel freq.length freq from
    buildTempFuel_eq_specOrderFuel freq.length freq]
  exact specOrderFuel_perm freq.length freq rfl

/-- With distinct table keys (as in any Python dict), the built tree has
pairwise-distinct leaf symbols - the hypothesis of claim C3. -/
theorem huffman_tree_leafSymbols_nodup (freq : List (Nat × Nat)) (t : HuffmanNode)
    (hk : (freq.map Prod.fst).Nodup) (h : huffman_tree freq = some t) :
    (leafSymbols t).Nodup :=
  (huffman_tree_leafSymbols_perm freq t h).nodup_iff.mpr hk
